import Mathlib

/-!
Shallow embedding of the PDF outline extractor (`process_pdfs.py`) and proofs
about its heading-classification, level-assignment, outline-assembly, title
selection, body-font estimation and batch filename handling.

Modelling conventions:
* Python floats are modelled as rationals (`ℚ`).
* The regex character classes are modelled on their ASCII behaviour, which is
  what every input in the development exercises: `\d` as `Char.isDigit`,
  `\s` as `Char.isWhitespace`, `\w` as alphanumeric-or-underscore; `str.strip`,
  `str.lower` likewise act on the ASCII range.
* Python's `sorted` (a stable sort) is modelled by `List.insertionSort`, which
  is stable for a non-strict relation; the stable sorted output is unique, so
  the two agree extensionally.
* The bounded loops of the two `re.sub` normalisation passes are written with
  an explicit fuel argument so that they are structurally recursive; the fuel
  passed at every call site (the length of the list being consumed) is enough
  for the loop to run to completion, since each step consumes at least one
  character.
-/

namespace PDFExtract

/-- A merged line-level text block, the `TextBlock` namedtuple of the source
(line 9): text, font size, font name, bold flag, bounding box, 1-based page. -/
structure TextBlock where
  text : String
  size : ℚ
  font : String
  bold : Bool
  x0 : ℚ
  y0 : ℚ
  x1 : ℚ
  y1 : ℚ
  page_num : ℕ
deriving DecidableEq

/-- Whitespace test, modelling the regex class `\s` and `str.strip`. -/
def isWs (c : Char) : Bool := c.isWhitespace

/-- Word-character test, modelling the regex class `\w`. -/
def wordChar (c : Char) : Bool := c.isAlphanum || c == '_'

/-- Leading and trailing whitespace removal, modelling `str.strip()`. -/
def trimL (l : List Char) : List Char :=
  ((l.dropWhile isWs).reverse.dropWhile isWs).reverse

/-- String-level `str.strip()`. -/
def strip (s : String) : String := String.mk (trimL s.data)

/-- String-level `str.lower()`. -/
def lowerStr (s : String) : String := String.mk (s.data.map Char.toLower)

/-- True when the list starts with a whitespace character; matching a prefix
against `\s` (and, for prefix purposes, `\s+`) reduces to this test. -/
def startsWs : List Char → Bool
  | [] => false
  | c :: _ => isWs c

/-- State machine recognising `(\.\d+)*\s` after an initial digit run, used by
`matchHeadingNum`.  The flag is `false` while inside a digit group and `true`
immediately after a dot.  Since the character classes `\d`, `\.` and `\s` are
disjoint, this deterministic scan agrees with the backtracking regex. -/
def numTailRun : Bool → List Char → Bool
  | _, [] => false
  | false, c :: rest =>
    if isWs c then true
    else if c == '.' then numTailRun true rest
    else if c.isDigit then numTailRun false rest
    else false
  | true, c :: rest => if c.isDigit then numTailRun false rest else false

/-- Whether `re.match` of the pattern in source line 107 — digits, then
dot-separated digit groups, then whitespace — succeeds at the start of `l`. -/
def matchHeadingNum : List Char → Bool
  | [] => false
  | c :: rest => c.isDigit && numTailRun false rest

/-- Consume `\d+`: requires a leading digit, then drops the whole digit run. -/
def eatDigits1 : List Char → Option (List Char)
  | [] => none
  | c :: rest => if c.isDigit then some (rest.dropWhile Char.isDigit) else none

/-- Consume a literal dot. -/
def eatDot : List Char → Option (List Char)
  | '.' :: rest => some rest
  | _ => none

/-- Match of the level pattern with one digit group (source line 119). -/
def matchNum1 (l : List Char) : Bool :=
  match eatDigits1 l with
  | some r => startsWs r
  | none => false

/-- Match of the level pattern with two digit groups (source line 117). -/
def matchNum2 (l : List Char) : Bool :=
  match eatDigits1 l >>= eatDot >>= eatDigits1 with
  | some r => startsWs r
  | none => false

/-- Match of the level pattern with three digit groups (source line 115). -/
def matchNum3 (l : List Char) : Bool :=
  match eatDigits1 l >>= eatDot >>= eatDigits1 >>= eatDot >>= eatDigits1 with
  | some r => startsWs r
  | none => false

/-- Match of the title-exclusion pattern of source line 142: digits, an
optional `)` or `.` marker, then whitespace.  When the optional marker is
present but not followed by whitespace the backtracking retry without the
marker also fails (the marker character itself is not whitespace), so the
deterministic greedy scan is exact. -/
def matchTitleNum (l : List Char) : Bool :=
  match eatDigits1 l with
  | some r =>
    match r with
    | ')' :: r2 => startsWs r2
    | '.' :: r2 => startsWs r2
    | _ => startsWs r
  | none => false

/-- Heading classifier `_is_heading` (source lines 101-111). -/
def isHeading (bodyFontSize : ℚ) (b : TextBlock) : Bool :=
  let text := trimL b.text.data
  if text.length < 3 then false
  else if b.bold = true ∨ b.size ≥ bodyFontSize * 1.05 then true
  else if matchHeadingNum text then true
  else if text.any fun c => c.toNat > 255 then true
  else false

/-- Level assigner `_get_level` (source lines 113-128): numbering-depth
patterns first, then font-size ratio thresholds with boldness as tiebreak. -/
def getLevel (bodyFontSize : ℚ) (b : TextBlock) : Option String :=
  let text := trimL b.text.data
  if matchNum3 text then some ("H3")
  else if matchNum2 text then some ("H2")
  else if matchNum1 text then some ("H1")
  else
    let sr : ℚ := if bodyFontSize ≠ 0 then b.size / bodyFontSize else 1
    if sr ≥ 1.4 then some ("H1")
    else if sr ≥ 1.2 then some ("H2")
    else if sr ≥ 1.05 ∨ b.bold = true then some ("H3")
    else none

/-- An assembled heading record (level, trimmed text, page, y-position); the
dict built at source lines 85-90. -/
structure Heading where
  level : String
  text : String
  page : ℕ
  y0 : ℚ
deriving DecidableEq

/-- The sort order of source line 93: ascending page, then ascending y0. -/
def headingLe (a b : Heading) : Prop :=
  a.page < b.page ∨ (a.page = b.page ∧ a.y0 ≤ b.y0)

instance : DecidableRel headingLe := fun a b => by unfold headingLe; infer_instance

instance : IsTotal Heading headingLe := by
  constructor
  intro a b
  unfold headingLe
  rcases lt_trichotomy a.page b.page with h | h | h
  · exact Or.inl (Or.inl h)
  · rcases le_total a.y0 b.y0 with h2 | h2
    · exact Or.inl (Or.inr ⟨h, h2⟩)
    · exact Or.inr (Or.inr ⟨h.symm, h2⟩)
  · exact Or.inr (Or.inl h)

instance : IsTrans Heading headingLe := by
  constructor
  intro a b c hab hbc
  unfold headingLe at *
  rcases hab with h | ⟨h, h2⟩
  · rcases hbc with h3 | ⟨h3, _⟩
    · exact Or.inl (h.trans h3)
    · exact Or.inl (h3 ▸ h)
  · rcases hbc with h3 | ⟨h3, h4⟩
    · exact Or.inl (h ▸ h3)
    · exact Or.inr ⟨h.trans h3, h2.trans h4⟩

/-- Deduplication key of source line 94: lowercased text with the page. -/
def keyOf (h : Heading) : String × ℕ := (lowerStr h.text, h.page)

/-- The seen-set deduplication loop of source lines 91-98: keep a heading only
when its key has not been seen, accumulating seen keys. -/
def dedupAux : List (String × ℕ) → List Heading → List Heading
  | _, [] => []
  | seen, h :: t =>
    if keyOf h ∈ seen then dedupAux seen t
    else h :: dedupAux (keyOf h :: seen) t

/-- Headings collected from the blocks (source lines 80-90): a block
contributes exactly when the classifier accepts it and a level is assigned. -/
def rawHeadings (bodyFontSize : ℚ) (blocks : List TextBlock) : List Heading :=
  blocks.filterMap fun b =>
    if isHeading bodyFontSize b then
      match getLevel bodyFontSize b with
      | some lvl => some ⟨lvl, strip b.text, b.page_num, b.y0⟩
      | none => none
    else none

/-- The stable sort of source line 93. -/
def sortedHeadings (bodyFontSize : ℚ) (blocks : List TextBlock) : List Heading :=
  List.insertionSort headingLe (rawHeadings bodyFontSize blocks)

/-- Outline assembler `_extract_headings` (source lines 79-99). -/
def extractHeadings (bodyFontSize : ℚ) (blocks : List TextBlock) : List Heading :=
  dedupAux [] (sortedHeadings bodyFontSize blocks)

/-- Qualification test of source line 40 for the body-font histogram:
text longer than five characters and not bold. -/
def qualifies (b : TextBlock) : Bool := b.text.length > 5 && !b.bold

/-- Rounding to one decimal place, modelling `round(x, 1)` of source line 41
(nearest tenth; Python's tie-to-even at exact half-tenths is abstracted to
round-half-up, no input of this development hits a tie). -/
def round1 (q : ℚ) : ℚ := (⌊10 * q + 1 / 2⌋ : ℤ) / 10

/-- Rounded sizes of the qualifying blocks of the first three pages, in
iteration order (source lines 37-41). -/
def sampleKeys (pages : List (List TextBlock)) : List ℚ :=
  ((pages.take 3).flatten.filter qualifies).map fun b => round1 b.size

/-- One `font_counts[key] += 1` step on an insertion-ordered histogram,
modelling the `defaultdict(int)` of source lines 36-41: an existing key is
incremented in place, a new key is appended. -/
def bump (items : List (ℚ × ℕ)) (k : ℚ) : List (ℚ × ℕ) :=
  if items.any fun it => decide (it.1 = k) then
    items.map fun it => if it.1 = k then (it.1, it.2 + 1) else it
  else items ++ [(k, 1)]

/-- The insertion-ordered histogram after all qualifying blocks are counted. -/
def fontCounts (pages : List (List TextBlock)) : List (ℚ × ℕ) :=
  (sampleKeys pages).foldl bump []

/-- The fold of Python's `max(items, key=lambda x: x[1])` over the remaining
items: the current best is replaced only on a strictly greater count, so the
first item of maximal count wins. -/
def pickFold (b0 : ℚ × ℕ) (l : List (ℚ × ℕ)) : ℚ × ℕ :=
  l.foldl (fun best x => if x.2 > best.2 then x else best) b0

/-- Python's `max(items, key=lambda x: x[1])[0]` over the histogram items
(source line 42). -/
def pickMax : List (ℚ × ℕ) → Option ℚ
  | [] => none
  | it :: rest => some (pickFold it rest).1

/-- Insertion-ordered key set: append a key only when new; this is the key
insertion order of a Python dict. -/
def insertKey (ks : List ℚ) (k : ℚ) : List ℚ :=
  if k ∈ ks then ks else ks ++ [k]

/-- The first-encounter order of the keys of a sample, the iteration order of
the `defaultdict` built at source lines 36-41. -/
def keyOrder (ks : List ℚ) : List ℚ := ks.foldl insertKey []

/-- One histogram entry in specification form: a key paired with its number of
occurrences in the sample. -/
def keyEntry (p : List ℚ) (k : ℚ) : ℚ × ℕ := (k, p.count k)

/-- Specification form of the histogram: keys in first-encounter order, each
paired with its number of occurrences in the sample. -/
def histoOf (p : List ℚ) : List (ℚ × ℕ) :=
  (keyOrder p).map (keyEntry p)

/-- Body-font estimator `_analyze_body_font` (source lines 35-42), with the
10.0 default when no block qualifies. -/
def analyzeBodyFont (pages : List (List TextBlock)) : ℚ :=
  match pickMax (fontCounts pages) with
  | some k => k
  | none => 10

/-- The sort order of source line 134 for title candidates: descending size,
then ascending y0 (the key `(-b.size, b.y0)`). -/
def titleLe (a b : TextBlock) : Prop :=
  a.size > b.size ∨ (a.size = b.size ∧ a.y0 ≤ b.y0)

instance : DecidableRel titleLe := fun a b => by unfold titleLe; infer_instance

instance : IsTotal TextBlock titleLe := by
  constructor
  intro a b
  unfold titleLe
  rcases lt_trichotomy a.size b.size with h | h | h
  · exact Or.inr (Or.inl h)
  · rcases le_total a.y0 b.y0 with h2 | h2
    · exact Or.inl (Or.inr ⟨h, h2⟩)
    · exact Or.inr (Or.inr ⟨h.symm, h2⟩)
  · exact Or.inl (Or.inl h)

instance : IsTrans TextBlock titleLe := by
  constructor
  intro a b c hab hbc
  unfold titleLe at *
  rcases hab with h | ⟨h, h2⟩
  · rcases hbc with h3 | ⟨h3, _⟩
    · exact Or.inl (h3.trans h)
    · exact Or.inl (h3 ▸ h)
  · rcases hbc with h3 | ⟨h3, h4⟩
    · exact Or.inl (h ▸ h3)
    · exact Or.inr ⟨h.trans h3, h2.trans h4⟩

/-- The fixed boilerplate exclusion set of source line 144. -/
def boilerplate : List String := ["overview", "table of contents", "revision history"]

/-- The acceptance conditions on one title candidate, the chain of `continue`
guards of source lines 138-147: vertical position, near-top size, no numeric
marker, not boilerplate, horizontally centred. -/
def acceptsTitleCand (pageWidth topSize : ℚ) (b : TextBlock) : Bool :=
  if b.y0 > 300 then false
  else if |b.size - topSize| > 2 then false
  else if matchTitleNum (trimL b.text.data) then false
  else if lowerStr (strip b.text) ∈ boilerplate then false
  else if |(b.x0 + b.x1) / 2 - pageWidth / 2| > pageWidth * 0.25 then false
  else true

/-- Boolean prefix test on character lists, modelling a literal string match
inside the normalisation regex. -/
def leadsWith : List Char → List Char → Bool
  | [], _ => true
  | _ :: _, [] => false
  | a :: as, b :: bs => a == b && leadsWith as bs

/-- Word-boundary test for a position whose preceding character is a word
character: the boundary holds at end of input or before a non-word char. -/
def boundaryB : List Char → Bool
  | [] => true
  | c :: _ => !wordChar c

/-- Greedy consumption of the repetitions `( \1\b)+` of the word-collapse
regex of source line 150: repeatedly drop a space followed by the word `w`
at a word boundary.  `fuel` bounds the iteration count; the length of the
scanned list always suffices since each step drops at least two characters. -/
def collapseRepsF (w : List Char) : ℕ → List Char → List Char
  | 0, l => l
  | fuel + 1, l =>
    if leadsWith (' ' :: w) l && boundaryB (l.drop (w.length + 1)) then
      collapseRepsF w fuel (l.drop (w.length + 1))
    else l

/-- One left-to-right pass of `re.sub` for the word-collapse pattern of source
line 150.  A match can only start at a word start (the pattern opens with a
boundary and a word char); `\w+` is forced to take the whole maximal word,
because a shorter prefix leaves a word character where the pattern next
requires a space.  When at least one repetition follows, the whole match is
replaced by the single word; scanning resumes after the match. -/
def collapseWordsF : ℕ → Bool → List Char → List Char
  | 0, _, l => l
  | _ + 1, _, [] => []
  | fuel + 1, prevW, c :: rest =>
    if !prevW && wordChar c then
      let w := c :: rest.takeWhile wordChar
      let r2 := rest.dropWhile wordChar
      w ++ collapseWordsF fuel true (collapseRepsF w r2.length r2)
    else c :: collapseWordsF fuel (wordChar c) rest

/-- The whitespace-collapse `re.sub` of source line 151: every run of two or
more whitespace characters becomes a single space, a lone whitespace char is
kept as-is.  The flag records being inside an already-collapsed run. -/
def collapseWsAux : Bool → List Char → List Char
  | _, [] => []
  | true, c :: rest =>
    if isWs c then collapseWsAux true rest else c :: collapseWsAux false rest
  | false, c :: rest =>
    if isWs c then
      match rest with
      | [] => [c]
      | d :: _ =>
        if isWs d then ' ' :: collapseWsAux true rest else c :: collapseWsAux false rest
    else c :: collapseWsAux false rest

/-- The title normalisation of source lines 150-151: collapse immediately
repeated words (single-space separated, case-sensitive), then collapse
whitespace runs. -/
def normalizeTitle (s : String) : String :=
  String.mk (collapseWsAux false (collapseWordsF s.data.length false s.data))

/-- The accepted title is returned only when longer than five characters
(source line 152). -/
def finalizeTitle (t : String) : String :=
  if t.length > 5 then t else ("Document Title")

/-- The candidate scan loop of source lines 137-153: the first accepted
candidate's normalised text is returned, the fallback otherwise. -/
def scanTitle (pageWidth topSize : ℚ) : List TextBlock → String
  | [] => ("Document Title")
  | b :: rest =>
    if acceptsTitleCand pageWidth topSize b then
      finalizeTitle (normalizeTitle (strip b.text))
    else scanTitle pageWidth topSize rest

/-- Page-1 blocks sorted by descending size then ascending y0
(source lines 131-134). -/
def titleCands (blocks : List TextBlock) : List TextBlock :=
  List.insertionSort titleLe (blocks.filter fun b => b.page_num == 1)

/-- Title selector `_extract_title` (source lines 130-153).  With no page-1
block the fallback is returned before the page geometry is ever consulted. -/
def extractTitle (pageWidth : ℚ) (blocks : List TextBlock) : String :=
  match titleCands blocks with
  | [] => ("Document Title")
  | top :: rest => scanTitle pageWidth top.size (top :: rest)

/-- One outline record of the output JSON (source lines 29-32). -/
structure OutlineEntry where
  level : String
  text : String
  page : ℕ
deriving DecidableEq

/-- The per-document result record (source lines 27-33). -/
structure PDFResult where
  title : String
  outline : List OutlineEntry
deriving DecidableEq

/-- Whole-document pipeline `process_pdf` (source lines 21-33); a document is
its pages, each page the list of its merged text blocks, plus the first page's
width used for title centring. -/
def processPdf (pageWidth : ℚ) (pages : List (List TextBlock)) : PDFResult :=
  let bodyFontSize := analyzeBodyFont pages
  let all_blocks := pages.flatten
  { title := extractTitle pageWidth all_blocks
    outline := (extractHeadings bodyFontSize all_blocks).map fun h => ⟨h.level, h.text, h.page⟩ }

/-- The characters of the literal `.pdf`. -/
def pdfExt : List Char := ['.', 'p', 'd', 'f']

/-- The characters of the literal `.json`. -/
def jsonExt : List Char := ['.', 'j', 's', 'o', 'n']

/-- The batch filter of source line 162: `filename.lower().endswith(".pdf")`. -/
def isPdfName (filename : String) : Bool :=
  pdfExt.isSuffixOf (filename.data.map Char.toLower)

/-- Left-to-right non-overlapping replacement of every occurrence of `pat` by
`rep`, modelling Python's `str.replace`; `fuel` at least the length of the
scanned list suffices for a non-empty pattern. -/
def replaceAllF (pat rep : List Char) : ℕ → List Char → List Char
  | _, [] => []
  | 0, l => l
  | fuel + 1, c :: rest =>
    if leadsWith pat (c :: rest) then rep ++ replaceAllF pat rep fuel ((c :: rest).drop pat.length)
    else c :: replaceAllF pat rep fuel rest

/-- The output filename of source line 164: `filename.replace(".pdf", ".json")`,
replacing every case-sensitive occurrence. -/
def outputName (filename : String) : String :=
  String.mk (replaceAllF pdfExt jsonExt filename.data.length filename.data)

/-- Concrete block whose trimmed text is the two-group numbered heading of C2,
at exactly the body font size and not bold. -/
def blk21 : TextBlock := ⟨"2.1 Background", 10, "F", false, 0, 0, 10, 10, 1⟩

/-- Concrete non-bold block at size ratio exactly 1.4 against body size 10. -/
def blk14 : TextBlock := ⟨"Introduction", 14, "F", false, 0, 0, 10, 10, 1⟩

/-- Concrete non-bold block at size ratio exactly 1.39999 against body size 10. -/
def blk139 : TextBlock := ⟨"Introduction", 13.9999, "F", false, 0, 0, 10, 10, 1⟩

/-- Concrete block with a four-group numbering: classified a heading, yet the
level assigner matches none of its patterns. -/
def blkC8 : TextBlock := ⟨"1.2.3.4 Background", 10, "F", false, 0, 0, 10, 10, 1⟩

/-- Concrete page-1 block whose text carries a numeric list marker; largest
font of the page in the C7 witness scenario. -/
def blkNumTitle : TextBlock := ⟨"1) Introduction", 20, "F", false, 30, 10, 70, 20, 1⟩

/-- Concrete centred page-1 block accepted as the title in the C7 witness
scenario. -/
def blkRealTitle : TextBlock := ⟨"Annual Report", 19, "F", false, 30, 50, 70, 60, 1⟩

/-- Concrete page-1 block whose text starts with digits followed directly by
whitespace, with no `)` or `.` marker. -/
def blk2024 : TextBlock := ⟨"2024 Annual Review", 20, "F", false, 30, 10, 70, 20, 1⟩

/-- Body-text block with the given size and vertical position, qualifying for
the body-font histogram (long text, not bold). -/
def mkB (sz : ℚ) (y : ℚ) : TextBlock := ⟨"paragraph text", sz, "F", false, 0, y, 10, y + 5, 1⟩

/-- Three-page sample in which size 11.0 qualifies twelve times and size 9.0
qualifies five times (the concrete instance of C6). -/
def c6pages : List (List TextBlock) :=
  [[mkB 11 1, mkB 11 2, mkB 11 3, mkB 11 4, mkB 11 5, mkB 9 6],
   [mkB 11 1, mkB 11 2, mkB 11 3, mkB 11 4, mkB 9 5, mkB 9 6],
   [mkB 11 1, mkB 11 2, mkB 11 3, mkB 9 4, mkB 9 5]]

/-! Helper lemmas shared by the claim theorems. -/

/-- A candidate whose trimmed text carries a numeric list marker fails the
acceptance conditions, whatever its geometry. -/
theorem acceptsTitleCand_false_of_match (w ts : ℚ) (b : TextBlock)
    (hm : matchTitleNum (trimL b.text.data) = true) :
    acceptsTitleCand w ts b = false := by
  unfold acceptsTitleCand
  by_cases h1 : b.y0 > 300
  · rw [if_pos h1]
  · rw [if_neg h1]
    by_cases h2 : |b.size - ts| > 2
    · rw [if_pos h2]
    · rw [if_neg h2, if_pos hm]

/-- The scan steps past a rejected candidate. -/
theorem scanTitle_skip (w ts : ℚ) (b : TextBlock) (rest : List TextBlock)
    (hb : acceptsTitleCand w ts b = false) :
    scanTitle w ts (b :: rest) = scanTitle w ts rest := by
  simp only [scanTitle]
  rw [if_neg (by simp [hb])]

/-- The scan returns the normalised text of the first accepted candidate. -/
theorem scanTitle_first_accepted (w ts : ℚ) (l1 : List TextBlock) (c : TextBlock)
    (l2 : List TextBlock) (hskip : ∀ b ∈ l1, acceptsTitleCand w ts b = false)
    (hc : acceptsTitleCand w ts c = true) :
    scanTitle w ts (l1 ++ c :: l2) = finalizeTitle (normalizeTitle (strip c.text)) := by
  induction l1 with
  | nil =>
    simp only [List.nil_append, scanTitle]
    rw [if_pos hc]
  | cons b t ih =>
    have hb := hskip b (List.mem_cons_self b t)
    simp only [List.cons_append, scanTitle]
    rw [if_neg (by simp [hb])]
    exact ih fun x hx => hskip x (List.mem_cons_of_mem b hx)

/-- C1 counterexample: on the exact input `"Annual Annual Report   Report"`,
the normalization does not return `"Annual Report"` (the word-collapse pattern
only joins occurrences separated by a single space, and it runs before the
whitespace collapse). -/
theorem normalizeTitle_spaced_repeat_ne :
    normalizeTitle ("Annual Annual Report   Report") ≠ "Annual Report" := by decide

/-- C1 (amended): on the input `"Annual Annual Report   Report"` the
normalization returns `"Annual Report Report"`: the single-spaced repeat
`Annual Annual` collapses, the triple-spaced `Report   Report` does not, and
the whitespace run then shrinks to one space. -/
theorem normalizeTitle_spaced_repeat :
    normalizeTitle ("Annual Annual Report   Report") = "Annual Report Report" := by decide

/-- C2: a block whose trimmed text is exactly `"2.1 Background"`, not bold and
at exactly the body font size, is classified a heading and assigned level H2:
the two-group numbering prefix decides before any size-ratio rule. -/
theorem numbered_block_is_H2 (body : ℚ) (b : TextBlock)
    (htext : trimL b.text.data = ("2.1 Background").data)
    (hbold : b.bold = false) (hsize : b.size = body) :
    isHeading body b = true ∧ getLevel body b = some ("H2") := by
  constructor
  · simp only [isHeading, htext]
    by_cases h : b.bold = true ∨ b.size ≥ body * 1.05
    · rw [if_neg (by decide), if_pos h]
    · rw [if_neg (by decide), if_neg h]
      decide
  · simp only [getLevel, htext]
    rw [if_neg (by decide), if_pos (by decide)]

/-- C2 witness: the concrete block `blk21` with body size 10. -/
theorem numbered_block_is_H2_witness :
    isHeading 10 blk21 = true ∧ getLevel 10 blk21 = some ("H2") :=
  numbered_block_is_H2 10 blk21 (by decide) rfl rfl

/-- C4: an empty document (zero pages, hence zero blocks) raises no error and
produces exactly the fallback record, with the body font size defaulting
to 10 internally. -/
theorem processPdf_empty (w : ℚ) :
    processPdf w [] = ⟨"Document Title", []⟩ ∧ analyzeBodyFont [] = 10 :=
  ⟨rfl, rfl⟩

/-- C4 witness: the empty document at a concrete page width. -/
theorem processPdf_empty_witness :
    processPdf 0 [] = ⟨"Document Title", []⟩ ∧ analyzeBodyFont [] = 10 :=
  processPdf_empty 0

/-- C10: a page-1 block whose trimmed text starts with digits directly
followed by whitespace — no `)` or `.` marker — matches the exclusion pattern
(witnessed on `"2024 Annual Review"`), and every block matching the pattern is
skipped by the title candidate scan. -/
theorem titleScan_skips_digit_blocks :
    matchTitleNum (trimL ("2024 Annual Review").data) = true ∧
    ∀ (w ts : ℚ) (b : TextBlock) (rest : List TextBlock),
      matchTitleNum (trimL b.text.data) = true →
      scanTitle w ts (b :: rest) = scanTitle w ts rest := by
  refine ⟨by decide, fun w ts b rest hm => ?_⟩
  exact scanTitle_skip w ts b rest (acceptsTitleCand_false_of_match w ts b hm)

/-- C10 witness: the scan drops the concrete block `blk2024`. -/
theorem titleScan_skips_digit_blocks_witness :
    scanTitle 100 10 [blk2024] = scanTitle 100 10 [] :=
  titleScan_skips_digit_blocks.2 100 10 blk2024 [] (by decide)

/-- C3: for a heading-classified block with no numbering prefix and not bold,
a size ratio of exactly 1.4 yields H1 and a ratio of 1.39999 yields H2: the
threshold comparisons are inclusive. -/
theorem level_threshold_boundaries (body : ℚ) (b : TextBlock)
    (hH : isHeading body b = true)
    (h3 : matchNum3 (trimL b.text.data) = false)
    (h2 : matchNum2 (trimL b.text.data) = false)
    (h1 : matchNum1 (trimL b.text.data) = false)
    (hbold : b.bold = false) :
    (b.size / body = 1.4 → getLevel body b = some ("H1")) ∧
    (b.size / body = 1.39999 → getLevel body b = some ("H2")) := by
  have hbody : ∀ q : ℚ, q ≠ 0 → b.size / body = q → body ≠ 0 := by
    intro q hq hr h0
    rw [h0, div_zero] at hr
    exact hq hr.symm
  constructor
  · intro hr
    simp only [getLevel]
    rw [if_neg (by simp [h3]), if_neg (by simp [h2]), if_neg (by simp [h1]),
      if_pos (hbody 1.4 (by norm_num) hr), hr]
    rw [if_pos (by norm_num)]
  · intro hr
    simp only [getLevel]
    rw [if_neg (by simp [h3]), if_neg (by simp [h2]), if_neg (by simp [h1]),
      if_pos (hbody 1.39999 (by norm_num) hr), hr]
    rw [if_neg (by norm_num), if_pos (by norm_num)]

/-- C3 witness: the concrete non-bold blocks `blk14` (ratio exactly 1.4,
level H1) and `blk139` (ratio 1.39999, level H2) against body size 10. -/
theorem level_threshold_boundaries_witness :
    getLevel 10 blk14 = some ("H1") ∧ getLevel 10 blk139 = some ("H2") := by
  constructor
  · exact (level_threshold_boundaries 10 blk14
      (by norm_num [isHeading, blk14]; decide)
      (by decide) (by decide) (by decide) rfl).1 (by norm_num [blk14])
  · exact (level_threshold_boundaries 10 blk139
      (by norm_num [isHeading, blk139]; decide)
      (by decide) (by decide) (by decide) rfl).2 (by norm_num [blk139])

/-- C7: when the largest page-1 candidate's trimmed text is
`"1) Introduction"`, the title selector skips it (its text is never returned):
the scan proceeds over the remaining candidates in (descending size,
ascending y0) order and returns the first accepted one when it exists. -/
theorem title_skips_numbered_top (w : ℚ) (blocks : List TextBlock) (top : TextBlock)
    (rest : List TextBlock) (hsort : titleCands blocks = top :: rest)
    (htop : strip top.text = "1) Introduction") :
    extractTitle w blocks = scanTitle w top.size rest ∧
    (∀ b : TextBlock, strip b.text = "1) Introduction" →
      acceptsTitleCand w top.size b = false) ∧
    ∀ l1 c l2, rest = l1 ++ c :: l2 →
      (∀ b ∈ l1, acceptsTitleCand w top.size b = false) →
      acceptsTitleCand w top.size c = true →
      extractTitle w blocks = finalizeTitle (normalizeTitle (strip c.text)) := by
  have hskipAll : ∀ b : TextBlock, strip b.text = "1) Introduction" →
      acceptsTitleCand w top.size b = false := by
    intro b hb
    have hdata : trimL b.text.data = ("1) Introduction").data := congrArg String.data hb
    exact acceptsTitleCand_false_of_match w top.size b (by rw [hdata]; decide)
  have hmain : extractTitle w blocks = scanTitle w top.size rest := by
    unfold extractTitle
    rw [hsort]
    exact scanTitle_skip w top.size top rest (hskipAll top htop)
  refine ⟨hmain, hskipAll, fun l1 c l2 hrest hsk hc => ?_⟩
  rw [hmain, hrest]
  exact scanTitle_first_accepted w top.size l1 c l2 hsk hc

/-- C7 witness: a concrete page where the largest block reads
`"1) Introduction"`; the selection reduces to the scan over the remaining
candidate. -/
theorem title_skips_numbered_top_witness :
    extractTitle 100 [blkNumTitle, blkRealTitle] = scanTitle 100 20 [blkRealTitle] :=
  (title_skips_numbered_top 100 [blkNumTitle, blkRealTitle] blkNumTitle [blkRealTitle]
    (by decide) (by decide)).1

/-- Every suffix of the deduplication loop output is a sublist of its input. -/
theorem dedupAux_sublist (l : List Heading) : ∀ seen : List (String × ℕ),
    List.Sublist (dedupAux seen l) l := by
  induction l with
  | nil =>
    intro seen
    exact List.Sublist.refl []
  | cons h t ih =>
    intro seen
    by_cases hk : keyOf h ∈ seen
    · simp only [dedupAux, if_pos hk]
      exact (ih seen).cons h
    · simp only [dedupAux, if_neg hk]
      exact (ih (keyOf h :: seen)).cons₂ h

/-- Each member of the raw heading list arises from a block that the
classifier accepted and to which a level was assigned. -/
theorem mem_rawHeadings {body : ℚ} {blocks : List TextBlock} {h : Heading}
    (hm : h ∈ rawHeadings body blocks) :
    ∃ b ∈ blocks, isHeading body b = true ∧ getLevel body b = some h.level := by
  unfold rawHeadings at hm
  rcases List.mem_filterMap.mp hm with ⟨b, hb, hf⟩
  refine ⟨b, hb, ?_⟩
  by_cases hih : isHeading body b = true
  · rw [if_pos hih] at hf
    cases hg : getLevel body b with
    | none =>
      rw [hg] at hf
      cases hf
    | some lvl =>
      rw [hg] at hf
      cases hf
      exact ⟨hih, by simp [hg]⟩
  · rw [if_neg hih] at hf
    cases hf

/-- Members of the assembled outline come from the raw heading list. -/
theorem mem_extractHeadings {body : ℚ} {blocks : List TextBlock} {h : Heading}
    (hm : h ∈ extractHeadings body blocks) :
    h ∈ rawHeadings body blocks := by
  have h1 : h ∈ sortedHeadings body blocks :=
    (dedupAux_sublist _ []).subset hm
  exact (List.perm_insertionSort headingLe (rawHeadings body blocks)).subset h1

/-- C8: a block can be classified as a heading yet receive no level (witness:
`blkC8`, four-group numbering, non-bold, at body size); every outline member
arises from a block with an assigned level, so such blocks are silently
excluded; on the concrete witness the outline is empty, without error. -/
theorem heading_level_drop (body : ℚ) (blocks : List TextBlock) :
    (isHeading 10 blkC8 = true ∧ getLevel 10 blkC8 = none) ∧
    (∀ h ∈ extractHeadings body blocks, ∃ b ∈ blocks,
      isHeading body b = true ∧ getLevel body b = some h.level) ∧
    extractHeadings 10 [blkC8] = [] := by
  refine ⟨⟨?_, ?_⟩, ?_, ?_⟩
  · norm_num [isHeading, blkC8]
    decide
  · norm_num [getLevel, blkC8]
    decide
  · intro h hm
    exact mem_rawHeadings (mem_extractHeadings hm)
  · have hg : getLevel 10 blkC8 = none := by
      norm_num [getLevel, blkC8]
      decide
    have hraw : rawHeadings 10 [blkC8] = [] := by
      simp [rawHeadings, hg]
    unfold extractHeadings sortedHeadings
    rw [hraw]
    rfl

/-- C8 witness: the concrete document consisting only of `blkC8` produces an
empty outline. -/
theorem heading_level_drop_witness : extractHeadings 10 [blkC8] = [] :=
  (heading_level_drop 10 [blkC8]).2.2

/-- Filtering the deduplicated list at one key yields nothing when the key was
already seen, and exactly the first input occurrence otherwise. -/
theorem dedupAux_filter (l : List Heading) : ∀ (seen : List (String × ℕ)) (k : String × ℕ),
    (dedupAux seen l).filter (fun h => decide (keyOf h = k)) =
      if k ∈ seen then [] else (l.filter fun h => decide (keyOf h = k)).take 1 := by
  induction l with
  | nil =>
    intro seen k
    simp [dedupAux]
  | cons h t ih =>
    intro seen k
    by_cases hk : keyOf h ∈ seen
    · simp only [dedupAux, if_pos hk]
      rw [ih seen k]
      by_cases hks : k ∈ seen
      · simp [hks]
      · have hne : keyOf h ≠ k := fun he => hks (he ▸ hk)
        rw [if_neg hks, if_neg hks, List.filter_cons_of_neg (by simp [hne])]
    · simp only [dedupAux, if_neg hk]
      by_cases hke : keyOf h = k
      · have hks : k ∉ seen := by
          rw [← hke]
          exact hk
        rw [List.filter_cons_of_pos (by simp [hke]), ih (keyOf h :: seen) k,
          if_pos (by rw [← hke]; exact List.mem_cons_self _ _), if_neg hks,
          List.filter_cons_of_pos (by simp [hke])]
        rfl
      · rw [List.filter_cons_of_neg (by simp [hke]), ih (keyOf h :: seen) k]
        by_cases hks : k ∈ seen
        · rw [if_pos (List.mem_cons_of_mem _ hks), if_pos hks]
        · rw [if_neg ?hns, if_neg hks, List.filter_cons_of_neg (by simp [hke])]
          case hns =>
            intro hmem
            rcases List.mem_cons.mp hmem with he | hm
            · exact hke he.symm
            · exact hks hm

/-- The keys of the deduplicated list are distinct and avoid the seen set. -/
theorem dedupAux_keys (l : List Heading) : ∀ seen : List (String × ℕ),
    ((dedupAux seen l).map keyOf).Nodup ∧
      ∀ k ∈ (dedupAux seen l).map keyOf, k ∉ seen := by
  induction l with
  | nil =>
    intro seen
    constructor
    · simp [dedupAux]
    · intro k hkm
      simp [dedupAux] at hkm
  | cons h t ih =>
    intro seen
    by_cases hk : keyOf h ∈ seen
    · simpa [dedupAux, if_pos hk] using ih seen
    · have iht := ih (keyOf h :: seen)
      constructor
      · simp only [dedupAux, if_neg hk, List.map_cons, List.nodup_cons]
        refine ⟨fun hmem => ?_, iht.1⟩
        exact (iht.2 _ hmem) (List.mem_cons_self _ _)
      · intro k hkm
        simp only [dedupAux, if_neg hk, List.map_cons, List.mem_cons] at hkm
        rcases hkm with rfl | hkm
        · exact hk
        · exact fun hks => (iht.2 _ hkm) (List.mem_cons_of_mem _ hks)

/-- C5: the assembled outline is sorted by ascending (page, y0); no two
entries share the (lowercased text, page) key; and at each key the entry kept
is exactly the first occurrence in the sorted heading list. -/
theorem outline_assembly_invariant (body : ℚ) (blocks : List TextBlock) :
    (extractHeadings body blocks).Pairwise headingLe ∧
    ((extractHeadings body blocks).map keyOf).Nodup ∧
    ∀ k : String × ℕ,
      (extractHeadings body blocks).filter (fun h => decide (keyOf h = k)) =
        ((sortedHeadings body blocks).filter fun h => decide (keyOf h = k)).take 1 := by
  refine ⟨?_, (dedupAux_keys _ []).1, fun k => ?_⟩
  · have hs : (sortedHeadings body blocks).Pairwise headingLe :=
      List.sorted_insertionSort headingLe (rawHeadings body blocks)
    exact hs.sublist (dedupAux_sublist _ [])
  · unfold extractHeadings
    rw [dedupAux_filter _ [] k, if_neg (List.not_mem_nil k)]

/-- C5 witness: the invariant instantiated on a concrete document. -/
theorem outline_assembly_invariant_witness :
    (extractHeadings 10 [blk21]).Pairwise headingLe ∧
    ((extractHeadings 10 [blk21]).map keyOf).Nodup :=
  ⟨(outline_assembly_invariant 10 [blk21]).1, (outline_assembly_invariant 10 [blk21]).2.1⟩

/-- Membership in the folded key-insertion accumulator. -/
theorem mem_foldl_insertKey (p : List ℚ) : ∀ (acc : List ℚ) (k : ℚ),
    k ∈ p.foldl insertKey acc ↔ k ∈ acc ∨ k ∈ p := by
  induction p with
  | nil =>
    intro acc k
    simp
  | cons a t ih =>
    intro acc k
    rw [List.foldl_cons, ih]
    constructor
    · rintro (hk | hk)
      · unfold insertKey at hk
        by_cases ha : a ∈ acc
        · rw [if_pos ha] at hk
          exact Or.inl hk
        · rw [if_neg ha] at hk
          rcases List.mem_append.mp hk with hk2 | hk2
          · exact Or.inl hk2
          · rcases List.mem_singleton.mp hk2 with rfl
            exact Or.inr (List.mem_cons_self _ _)
      · exact Or.inr (List.mem_cons_of_mem _ hk)
    · rintro (hk | hk)
      · left
        unfold insertKey
        by_cases ha : a ∈ acc
        · rw [if_pos ha]
          exact hk
        · rw [if_neg ha]
          exact List.mem_append.mpr (Or.inl hk)
      · rcases List.mem_cons.mp hk with rfl | hk2
        · left
          unfold insertKey
          by_cases ha : k ∈ acc
          · rw [if_pos ha]
            exact ha
          · rw [if_neg ha]
            exact List.mem_append.mpr (Or.inr (List.mem_singleton.mpr rfl))
        · exact Or.inr hk2

/-- A key occurs in the first-encounter order exactly when it occurs in the
sample. -/
theorem mem_keyOrder (ks : List ℚ) (k : ℚ) : k ∈ keyOrder ks ↔ k ∈ ks := by
  unfold keyOrder
  rw [mem_foldl_insertKey]
  simp

/-- One histogram increment preserves the specification form. -/
theorem bump_histoOf (p : List ℚ) (a : ℚ) : bump (histoOf p) a = histoOf (p ++ [a]) := by
  have hkeyOrder_app : keyOrder (p ++ [a]) = insertKey (keyOrder p) a := by
    unfold keyOrder
    rw [List.foldl_append]
    rfl
  by_cases hap : a ∈ p
  · have hmem : a ∈ keyOrder p := (mem_keyOrder p a).mpr hap
    have hany : (histoOf p).any (fun it => decide (it.1 = a)) = true := by
      rw [List.any_eq_true]
      exact ⟨keyEntry p a, List.mem_map_of_mem _ hmem, by simp [keyEntry]⟩
    unfold bump
    rw [if_pos hany]
    have hko : keyOrder (p ++ [a]) = keyOrder p := by
      rw [hkeyOrder_app]
      unfold insertKey
      rw [if_pos hmem]
    unfold histoOf
    rw [hko, List.map_map]
    apply List.map_congr_left
    intro k hks
    by_cases hk : k = a
    · subst hk
      show (if k = k then (k, p.count k + 1) else (k, p.count k)) = keyEntry (p ++ [k]) k
      rw [if_pos rfl]
      unfold keyEntry
      simp
    · show (if k = a then (k, p.count k + 1) else (k, p.count k)) = keyEntry (p ++ [a]) k
      rw [if_neg hk]
      unfold keyEntry
      have hz : List.count k [a] = 0 := List.count_eq_zero.mpr (by simp [hk])
      simp [List.count_append, hz]
  · have hmem : a ∉ keyOrder p := fun hm => hap ((mem_keyOrder p a).mp hm)
    have hany : (histoOf p).any (fun it => decide (it.1 = a)) = false := by
      rw [List.any_eq_false]
      intro it hit
      rcases List.mem_map.mp hit with ⟨k, hks, rfl⟩
      simp only [keyEntry, decide_eq_true_eq]
      exact fun he => hmem (he ▸ hks)
    unfold bump
    rw [if_neg (by simp [hany])]
    have hko : keyOrder (p ++ [a]) = keyOrder p ++ [a] := by
      rw [hkeyOrder_app]
      unfold insertKey
      rw [if_neg hmem]
    unfold histoOf
    rw [hko, List.map_append]
    congr 1
    · apply List.map_congr_left
      intro k hks
      have hk : k ≠ a := fun he => hmem (he ▸ hks)
      unfold keyEntry
      have hz : List.count k [a] = 0 := List.count_eq_zero.mpr (by simp [hk])
      simp [List.count_append, hz]
    · unfold keyEntry
      have h1 : List.count a (p ++ [a]) = 1 := by
        rw [List.count_append, List.count_eq_zero_of_not_mem hap, List.count_singleton_self]
      simp [h1, List.count_eq_zero_of_not_mem hap]

/-- Folding the histogram increment over further keys extends the sample. -/
theorem foldl_bump_histoOf (ks : List ℚ) : ∀ p : List ℚ,
    ks.foldl bump (histoOf p) = histoOf (p ++ ks) := by
  induction ks with
  | nil =>
    intro p
    simp
  | cons a t ih =>
    intro p
    rw [List.foldl_cons, bump_histoOf, ih (p ++ [a])]
    simp

/-- The accumulated font histogram is the insertion-ordered histogram of the
sample keys. -/
theorem fontCounts_eq (pages : List (List TextBlock)) :
    fontCounts pages = histoOf (sampleKeys pages) := by
  have h := foldl_bump_histoOf (sampleKeys pages) []
  rw [List.nil_append] at h
  exact h

/-- The max fold returns an element of the list whose count every element
reaches at most, and every element strictly before it has a strictly smaller
count (Python's `max` keeps the first maximal item). -/
theorem pickFold_spec (l : List (ℚ × ℕ)) : ∀ b0 : ℚ × ℕ,
    ∃ p s, b0 :: l = p ++ pickFold b0 l :: s ∧
      (∀ x ∈ p, x.2 < (pickFold b0 l).2) ∧
      ∀ x ∈ b0 :: l, x.2 ≤ (pickFold b0 l).2 := by
  induction l with
  | nil =>
    intro b0
    refine ⟨[], [], rfl, ?_, ?_⟩
    · intro x hx
      cases hx
    · intro x hx
      rcases List.mem_cons.mp hx with rfl | hx2
      · exact le_refl _
      · cases hx2
  | cons x t ih =>
    intro b0
    have hstep : pickFold b0 (x :: t) = pickFold (if x.2 > b0.2 then x else b0) t := rfl
    by_cases hx : x.2 > b0.2
    · rw [hstep, if_pos hx]
      rcases ih x with ⟨p, s, hsplit, hlt, hle⟩
      have hxle : x.2 ≤ (pickFold x t).2 := hle x (List.mem_cons_self _ _)
      refine ⟨b0 :: p, s, ?_, ?_, ?_⟩
      · rw [List.cons_append, ← hsplit]
      · intro y hy
        rcases List.mem_cons.mp hy with rfl | hyp
        · exact lt_of_lt_of_le hx hxle
        · exact hlt y hyp
      · intro y hy
        rcases List.mem_cons.mp hy with rfl | hyt
        · exact le_of_lt (lt_of_lt_of_le hx hxle)
        · exact hle y hyt
    · rw [hstep, if_neg hx]
      rcases ih b0 with ⟨p, s, hsplit, hlt, hle⟩
      have hxle : x.2 ≤ (pickFold b0 t).2 :=
        le_trans (le_of_not_lt hx) (hle b0 (List.mem_cons_self _ _))
      cases p with
      | nil =>
        simp only [List.nil_append] at hsplit
        injection hsplit with h1 h2
        refine ⟨[], x :: t, ?_, ?_, ?_⟩
        · rw [List.nil_append, ← h1]
        · intro y hy
          cases hy
        · intro y hy
          rcases List.mem_cons.mp hy with rfl | hyt
          · exact hle _ (List.mem_cons_self _ _)
          · rcases List.mem_cons.mp hyt with rfl | hyt2
            · exact hxle
            · exact hle _ (List.mem_cons_of_mem _ hyt2)
      | cons q p2 =>
        simp only [List.cons_append] at hsplit
        injection hsplit with h1 h2
        refine ⟨b0 :: x :: p2, s, ?_, ?_, ?_⟩
        · rw [List.cons_append, List.cons_append, ← h2]
        · intro y hy
          rcases List.mem_cons.mp hy with rfl | hy2
          · have hq := hlt q (List.mem_cons_self q p2)
            rw [← h1] at hq
            exact hq
          · rcases List.mem_cons.mp hy2 with rfl | hy3
            · calc y.2 ≤ b0.2 := le_of_not_lt hx
                _ = q.2 := by rw [h1]
                _ < _ := hlt q (List.mem_cons_self _ _)
            · exact hlt y (List.mem_cons_of_mem _ hy3)
        · intro y hy
          rcases List.mem_cons.mp hy with rfl | hyt
          · exact hle _ (List.mem_cons_self _ _)
          · rcases List.mem_cons.mp hyt with rfl | hyt2
            · exact hxle
            · exact hle _ (List.mem_cons_of_mem _ hyt2)

/-- Splitting a mapped list around a distinguished element lifts the split to
the source list. -/
theorem map_eq_append_cons {α β : Type} (f : α → β) (l : List α) (p : List β) (r : β)
    (s : List β) (h : l.map f = p ++ r :: s) :
    ∃ l1 a l2, l = l1 ++ a :: l2 ∧ l1.map f = p ∧ f a = r ∧ l2.map f = s := by
  induction l generalizing p with
  | nil =>
    cases p <;> simp at h
  | cons x t ih =>
    cases p with
    | nil =>
      simp only [List.map_cons, List.nil_append] at h
      injection h with h1 h2
      exact ⟨[], x, t, by simp, rfl, h1, h2⟩
    | cons q p2 =>
      simp only [List.map_cons, List.cons_append] at h
      injection h with h1 h2
      rcases ih p2 h2 with ⟨l1, a, l2, he, hm1, hfa, hm2⟩
      refine ⟨x :: l1, a, l2, by rw [he]; rfl, ?_, hfa, hm2⟩
      rw [List.map_cons, h1, hm1]

/-- C6: the body-font estimator defaults to 10 on an empty qualifying sample;
otherwise it returns a sample key of maximal count, where every key strictly
before it in first-encounter order has a strictly smaller count (the
first-encountered key wins ties); on the concrete three-page sample with
twelve qualifying size-11 blocks and five size-9 blocks it returns 11. -/
theorem bodyFont_histogram_max (pages : List (List TextBlock)) :
    (sampleKeys pages = [] → analyzeBodyFont pages = 10) ∧
    (sampleKeys pages ≠ [] →
      ∃ p s, keyOrder (sampleKeys pages) = p ++ analyzeBodyFont pages :: s ∧
        (∀ k ∈ p, (sampleKeys pages).count k <
          (sampleKeys pages).count (analyzeBodyFont pages)) ∧
        ∀ k ∈ sampleKeys pages, (sampleKeys pages).count k ≤
          (sampleKeys pages).count (analyzeBodyFont pages)) ∧
    analyzeBodyFont c6pages = 11 := by
  refine ⟨?_, ?_, ?_⟩
  · intro h
    unfold analyzeBodyFont
    rw [fontCounts_eq, h]
    rfl
  · intro hne
    have hco : ∃ k0 kt, keyOrder (sampleKeys pages) = k0 :: kt := by
      cases hko : keyOrder (sampleKeys pages) with
      | nil =>
        exfalso
        cases hsk : sampleKeys pages with
        | nil => exact hne hsk
        | cons a t =>
          have ha : a ∈ keyOrder (sampleKeys pages) :=
            (mem_keyOrder _ _).mpr (by rw [hsk]; exact List.mem_cons_self _ _)
          rw [hko] at ha
          exact List.not_mem_nil a ha
      | cons k0 kt => exact ⟨k0, kt, rfl⟩
    rcases hco with ⟨k0, kt, hkt⟩
    have hmapeq : (keyOrder (sampleKeys pages)).map (keyEntry (sampleKeys pages)) =
        keyEntry (sampleKeys pages) k0 :: kt.map (keyEntry (sampleKeys pages)) := by
      rw [hkt, List.map_cons]
    have hana : analyzeBodyFont pages =
        (pickFold (keyEntry (sampleKeys pages) k0)
          (kt.map (keyEntry (sampleKeys pages)))).1 := by
      unfold analyzeBodyFont
      rw [fontCounts_eq]
      unfold histoOf
      rw [hmapeq]
      rfl
    rcases pickFold_spec (kt.map (keyEntry (sampleKeys pages)))
      (keyEntry (sampleKeys pages) k0) with ⟨p', s', hsplit, hlt, hle⟩
    rw [← hmapeq] at hsplit
    rcases map_eq_append_cons (keyEntry (sampleKeys pages))
      (keyOrder (sampleKeys pages)) p' _ s' hsplit with ⟨l1, a, l2, hks, hm1, hfa, hm2⟩
    have hra : (pickFold (keyEntry (sampleKeys pages) k0)
        (kt.map (keyEntry (sampleKeys pages)))).1 = a := by
      rw [← hfa]
      rfl
    have hana2 : analyzeBodyFont pages = a := hana.trans hra
    have hcnt : (pickFold (keyEntry (sampleKeys pages) k0)
        (kt.map (keyEntry (sampleKeys pages)))).2 = (sampleKeys pages).count a := by
      rw [← hfa]
      rfl
    refine ⟨l1, l2, ?_, ?_, ?_⟩
    · rw [hks, hana2]
    · intro k hk
      have hfk : keyEntry (sampleKeys pages) k ∈ p' := by
        rw [← hm1]
        exact List.mem_map_of_mem _ hk
      have hlt2 := hlt _ hfk
      rw [hcnt] at hlt2
      rw [hana2]
      exact hlt2
    · intro k hk
      have hkk : k ∈ keyOrder (sampleKeys pages) := (mem_keyOrder _ _).mpr hk
      have hfk : keyEntry (sampleKeys pages) k ∈
          keyEntry (sampleKeys pages) k0 :: kt.map (keyEntry (sampleKeys pages)) := by
        rw [← hmapeq]
        exact List.mem_map_of_mem _ hkk
      have hle2 := hle _ hfk
      rw [hcnt] at hle2
      rw [hana2]
      exact hle2
  · have h11 : round1 (11 : ℚ) = 11 := by norm_num [round1]
    have h9 : round1 (9 : ℚ) = 9 := by norm_num [round1]
    have hq : ∀ sz y : ℚ, qualifies (mkB sz y) = true := by
      intro sz y
      show (decide (("paragraph text" : String).length > 5) && !false) = true
      decide
    have hsz : ∀ sz y : ℚ, (mkB sz y).size = sz := fun _ _ => rfl
    have hsk : sampleKeys c6pages =
        [11, 11, 11, 11, 11, 9, 11, 11, 11, 11, 9, 9, 11, 11, 11, 9, 9] := by
      simp [sampleKeys, c6pages, hq, hsz, h11, h9]
    have hfc : fontCounts c6pages = [(11, 12), (9, 5)] := by
      rw [fontCounts, hsk]
      decide
    unfold analyzeBodyFont
    rw [hfc]
    decide

/-- C6 witness: the concrete sample yields 11, the empty document yields the
10 default. -/
theorem bodyFont_histogram_max_witness :
    analyzeBodyFont c6pages = 11 ∧ analyzeBodyFont [] = 10 :=
  ⟨(bodyFont_histogram_max c6pages).2.2, (bodyFont_histogram_max []).1 rfl⟩

/-- C9 counterexample: `"REPORT.PDF"` passes the case-insensitive batch filter
yet its output filename is unchanged — `str.replace` only substitutes the
exact lowercase `.pdf` — so the output is not `"REPORT.json"` as the claim
requires. -/
theorem outputName_upper_counterexample :
    isPdfName ("REPORT.PDF") = true ∧ outputName ("REPORT.PDF") = "REPORT.PDF" ∧
      outputName ("REPORT.PDF") ≠ "REPORT.json" := by
  refine ⟨by decide, by decide, by decide⟩

/-- The replacement loop maps an empty input to an empty output at any fuel. -/
theorem replaceAllF_nil (pat rep : List Char) (fuel : ℕ) :
    replaceAllF pat rep fuel [] = [] := by
  cases fuel <;> rfl

/-- When the only occurrence of `.pdf` is the final extension, the
replacement rewrites exactly that extension. -/
theorem replace_only_final_occurrence (base : List Char) : ∀ fuel : ℕ,
    base.length + 4 ≤ fuel →
    (∀ i < base.length, leadsWith pdfExt ((base ++ pdfExt).drop i) = false) →
    replaceAllF pdfExt jsonExt fuel (base ++ pdfExt) = base ++ jsonExt := by
  induction base with
  | nil =>
    intro fuel hf hno
    cases fuel with
    | zero => omega
    | succ f =>
      simp only [List.nil_append, pdfExt, replaceAllF]
      rw [if_pos (by decide)]
      simp [replaceAllF_nil, jsonExt]
  | cons c b ih =>
    intro fuel hf hno
    cases fuel with
    | zero =>
      simp only [List.length_cons] at hf
      omega
    | succ f =>
      have h0 : leadsWith pdfExt (c :: (b ++ pdfExt)) = false := by
        have h00 := hno 0 (Nat.succ_pos b.length)
        simpa using h00
      simp only [List.cons_append, replaceAllF]
      rw [if_neg (by simp [h0])]
      congr 1
      apply ih f
      · simp only [List.length_cons] at hf
        omega
      · intro i hi
        have hs := hno (i + 1) (Nat.succ_lt_succ hi)
        simpa using hs

/-- C9 (amended): a filename whose lowercased form ends in `.pdf` is
processed; the output name replaces every exact-case occurrence of `.pdf` by
`.json`; in particular, when the only occurrence of `.pdf` is the final
extension, the output is the input with that extension replaced by `.json`. -/
theorem outputName_final_ext (base : List Char)
    (hno : ∀ i < base.length, leadsWith pdfExt ((base ++ pdfExt).drop i) = false) :
    isPdfName (String.mk (base ++ pdfExt)) = true ∧
    outputName (String.mk (base ++ pdfExt)) = String.mk (base ++ jsonExt) := by
  constructor
  · unfold isPdfName
    show pdfExt.isSuffixOf ((base ++ pdfExt).map Char.toLower) = true
    have hmap : (base ++ pdfExt).map Char.toLower = base.map Char.toLower ++ pdfExt := by
      rw [List.map_append]
      congr 1
    rw [hmap]
    rw [List.isSuffixOf_iff_suffix]
    exact List.suffix_append _ _
  · unfold outputName
    show String.mk (replaceAllF pdfExt jsonExt (base ++ pdfExt).length (base ++ pdfExt)) =
      String.mk (base ++ jsonExt)
    congr 1
    apply replace_only_final_occurrence base ((base ++ pdfExt).length) ?_ hno
    rw [List.length_append]
    exact le_refl _

/-- C9 witness: the filename `report.pdf`, whose only `.pdf` occurrence is the
final extension, maps to `report.json`. -/
theorem outputName_final_ext_witness :
    isPdfName (String.mk (("report").data ++ pdfExt)) = true ∧
    outputName (String.mk (("report").data ++ pdfExt)) =
      String.mk (("report").data ++ jsonExt) :=
  outputName_final_ext (("report").data) (by decide)

end PDFExtract
